import Mathlib

/-!
Verification of the urlscan backend (src/urlscan/urlscan.py).

Shallow embedding conventions:
* Python strings are modelled as `List Char`; ASCII suffices for every string
  the claims touch, so the character classes below implement the ASCII part of
  the patterns (the re.U extension of the word class to further Unicode letters
  is not needed by any claim and is noted where relevant).
* The compiled regular expression URLRE is modelled by a hand-rolled matcher
  (matchAt / finditerGo) that follows the exact pattern
    (?:<(?:URL:)?)?( HTTPURLPATTERN | GUESSEDURLPATTERN | (?P=email ...) )>?
  with the engine semantics of re: leftmost match position, alternatives tried
  in written order, greedy quantifiers with backtracking.  The dollar in
  GUESSEDURLPATTERN is modelled as end-of-string (the lines fed to the splitter
  are produced by splitting on newlines, so the before-a-final-newline case of
  the dollar never arises).
* Loops are written as structural recursion on an explicit fuel argument; every
  top-level entry point passes a fuel that is provably at least the number of
  iterations the Python loop performs, so the embedded function agrees with the
  loop on all inputs.
* Failure (a Python exception, e.g. int() on a non-digit string, or a group
  access on a pattern without that group) is modelled with Option, none being
  the raised exception.
-/

/-- The markup payload of a Chunk: Python uses None, a bare string, or a
(style, text) tuple. -/
inductive Markup where
  | null : Markup
  | text : List Char → Markup
  | styled : List Char → List Char → Markup
deriving DecidableEq, Repr

/-- Chunk from urlscan.py: a piece of (marked-up) text with an optional URL. -/
structure Chunk where
  markup : Markup
  url : Option (List Char)
deriving DecidableEq, Repr

/-! ## The Link Grammar (URLINTERNALPATTERN, URLTRAILINGPATTERN, URLRE) -/

/-- The regex word class backslash-w restricted to ASCII (re.U also admits
further Unicode letters; no claim exercises those). -/
def isWordChar (c : Char) : Bool := c.isAlphanum || c = '_'

/-- URLINTERNALPATTERN character class. -/
def isInternalChar (c : Char) : Bool :=
  isWordChar c || c = '{' || c = '}' || c = '(' || c = ')' || c = '@' ||
  c = '/' || c = '\\' || c = '-' || c = '%' || c = '?' || c = '!' ||
  c = '&' || c = '.' || c = '=' || c = ':' || c = ';' || c = '+' ||
  c = ',' || c = '#' || c = '~'

/-- URLTRAILINGPATTERN character class. -/
def isTrailingChar (c : Char) : Bool :=
  isWordChar c || c = '{' || c = '}' || c = '(' || c = '@' || c = '/' ||
  c = '-' || c = '%' || c = '&' || c = '=' || c = '+' || c = '#' || c = '$'

/-- Python slice s[a:b]. -/
def strSlice (s : List Char) (a b : Nat) : List Char := (s.drop a).take (b - a)

/-- Does the literal pat occur in s at position i. -/
def isPrefixAt (pat : List Char) (s : List Char) (i : Nat) : Bool :=
  pat.isPrefixOf (s.drop i)

/-- Length of the maximal run of characters satisfying p starting at i. -/
def runLen (p : Char → Bool) (s : List Char) (i : Nat) : Nat :=
  ((s.drop i).takeWhile p).length

/-- The scheme alternation (https?|file|ftps?) expanded in the order the
regex engine tries the alternatives. -/
def schemeCands : List (List Char) :=
  ["https".toList, "http".toList, "file".toList, "ftps".toList, "ftp".toList]

/-- Backtracking for URLINTERNALPATTERN* URLTRAILINGPATTERN: the star has
greedily consumed up to t characters from position j; find the largest
consumption after which one trailing-class character follows, returning the
position after that character. -/
def btrail (s : List Char) (j : Nat) : Nat → Option Nat
  | 0 =>
    match s.get? j with
    | some c => if isTrailingChar c then some (j + 1) else none
    | none => none
  | t+1 =>
    match s.get? (j + (t+1)) with
    | some c => if isTrailingChar c then some (j + (t+1) + 1) else btrail s j t
    | none => btrail s j t

/-- HTTPURLPATTERN at position j: scheme, ://, then the greedy interior run
with one trailing-class character.  Returns the end position of the match. -/
def matchHttp (s : List Char) (j : Nat) : Option Nat :=
  match schemeCands.findSome?
      (fun sch => if isPrefixAt (sch ++ "://".toList) s j
                  then some (j + sch.length + 3) else none) with
  | some k => btrail s k (runLen isInternalChar s k)
  | none => none

/-- Modelled from the spec: the TLD table is loaded from the bundled asset
assets/tlds-alpha-by-domain.txt, which is not among the examined sources.  The
spec (sections 2 and 8) pins down representative members: com, biz, edu, info,
org, zw, smile are valid TLDs and obviouslynotarealdomain is not.  The table
is modelled as exactly those named entries (lower-cased, as the loader
produces). -/
def TLDS : List (List Char) :=
  ["biz".toList, "com".toList, "edu".toList, "info".toList, "org".toList,
   "smile".toList, "zw".toList]

/-- Character class of the guessed-URL label groups. -/
def isGuessedChar (c : Char) : Bool := isWordChar c || c = '-' || c = '%'

/-- Split on literal dots, keeping empty segments (so a doubled dot yields an
empty segment and the match fails, as in the regex). -/
def splitDots : List Char → List (List Char)
  | [] => [[]]
  | c :: cs =>
    if c = '.' then [] :: splitDots cs
    else
      match splitDots cs with
      | seg :: rest => (c :: seg) :: rest
      | [] => [[c]]

/-- GUESSEDURLPATTERN at position j.  The pattern is
[backslash-w-percent]+(.[...]+)*.(TLD alternation)$ — because of the dollar it
matches exactly when the whole remainder of the string is a dot-separated
sequence of nonempty label groups whose last segment is a TLD table entry. -/
def matchGuessed (s : List Char) (j : Nat) : Option Nat :=
  let segs := splitDots (s.drop j)
  if 2 ≤ segs.length ∧ segs.all (fun seg => !seg.isEmpty) ∧
     (segs.dropLast).all (fun seg => seg.all isGuessedChar) ∧
     TLDS.contains (segs.getLastD []) then
    some s.length
  else none

/-- Character class of the email local part and domain interior. -/
def isEmailChar (c : Char) : Bool := isWordChar c || c = '-' || c = '.'

/-- The email body [backslash-w-dot]+@[backslash-w-dot]*[backslash-w-hyphen]
at position j: a maximal local-part run, a literal at sign, then the maximal
domain run with its trailing dots backtracked away (the final character class
excludes the dot). -/
def emailCore (s : List Char) (j : Nat) : Option Nat :=
  let m := runLen isEmailChar s j
  if m = 0 then none
  else
    match s.get? (j + m) with
    | some c =>
      if c = '@' then
        let k := j + m + 1
        let run := (s.drop k).takeWhile isEmailChar
        let u := run.length - (run.reverse.takeWhile (fun d => d = '.')).length
        if u = 0 then none else some (k + u)
      else none
    | none => none

/-- The email alternative (mailto:)?...: greedily try with the mailto: literal
consumed first, backtracking to the bare form. -/
def matchEmail (s : List Char) (j : Nat) : Option Nat :=
  if isPrefixAt ("mailto:".toList) s j then
    match emailCore s (j + 7) with
    | some e => some e
    | none => emailCore s j
  else emailCore s j

/-- State of the named group (?P=email...) in a match object: the pattern may
lack the group entirely (custom patterns — accessing it raises), or the group
may not have participated, or it holds the matched text. -/
inductive EmailGroup where
  | noGroup : EmailGroup
  | unmatched : EmailGroup
  | matched : List Char → EmailGroup
deriving DecidableEq, Repr

/-- The big capture group ( HTTP | GUESSED | email ) at position j, trying the
alternatives in written order.  Returns the end position and the state of the
email group. -/
def group1At (s : List Char) (j : Nat) : Option (Nat × EmailGroup) :=
  match matchHttp s j with
  | some e => some (e, EmailGroup.unmatched)
  | none =>
    match matchGuessed s j with
    | some e => some (e, EmailGroup.unmatched)
    | none =>
      match matchEmail s j with
      | some e => some (e, EmailGroup.matched (strSlice s j e))
      | none => none

/-- The data of a Python match object that parse_text_urls consults: span,
group(0), group(1) and the named email group. -/
structure PyMatch where
  mstart : Nat
  mend : Nat
  g0 : List Char
  g1 : Option (List Char)
  emailg : EmailGroup
deriving DecidableEq, Repr

/-- The optional bracket markup (?:<(?:URL:)?)? produces up to three candidate
start positions for the big group, in the order the engine tries them. -/
def prefixEnds (s : List Char) (i : Nat) : List Nat :=
  (if isPrefixAt ("<URL:".toList) s i then [i + 5] else []) ++
  (if isPrefixAt ("<".toList) s i then [i + 1] else []) ++ [i]

/-- A URLRE match attempt anchored at position i, including the optional
bracket prefix and the greedy optional closing angle bracket. -/
def matchAt (s : List Char) (i : Nat) : Option PyMatch :=
  (prefixEnds s i).findSome? (fun j =>
    (group1At s j).map (fun pe =>
      let e2 :=
        match s.get? pe.1 with
        | some c => if c = '>' then pe.1 + 1 else pe.1
        | none => pe.1
      PyMatch.mk i e2 (strSlice s i e2) (some (strSlice s j pe.1)) pe.2))

/-- finditer: scan positions left to right, emitting non-overlapping matches
and resuming after each match.  Every URLRE match is at least one character
wide, so fuel length+2 always suffices. -/
def finditerGo (s : List Char) : Nat → Nat → List PyMatch
  | 0, _ => []
  | fuel+1, pos =>
    if pos ≤ s.length then
      match matchAt s pos with
      | some m => m :: finditerGo s fuel m.mend
      | none => finditerGo s fuel (pos + 1)
    else []

/-- A compiled pattern, reduced to what parse_text_urls consumes: its
finditer behaviour. -/
structure Matcher where
  finditer : List Char → List PyMatch

/-- The module-global URLRE in its initial (default-pattern) state. -/
def URLRE : Matcher := ⟨fun s => finditerGo s (s.length + 2) 0⟩

/-- One scan step of re.finditer for a literal (metacharacter-free) pattern:
emit an occurrence and resume after it, else advance one position. -/
def litGo (pat s : List Char) : Nat → Nat → List PyMatch
  | 0, _ => []
  | fuel+1, pos =>
    if pos ≤ s.length then
      if pat.isEmpty then []
      else if isPrefixAt pat s pos then
        PyMatch.mk pos (pos + pat.length) pat none EmailGroup.noGroup ::
          litGo pat s fuel (pos + pat.length)
      else litGo pat s fuel (pos + 1)
    else []

/-- Modelled from the spec: re.compile is standard-library code outside the
examined sources.  For a nonempty pattern string with no metacharacters it
matches exactly the literal occurrences of the pattern; such a pattern has no
capture groups, so group(1) and the named email group do not exist. -/
def literalMatcher (pat : List Char) : Matcher :=
  ⟨fun s => litGo pat s (s.length + 2) 0⟩

/-- Python substring containment (the in operator on strings). -/
def containsSeq (pat : List Char) : List Char → Bool
  | [] => pat.isEmpty
  | c :: cs => pat.isPrefixOf (c :: cs) || containsSeq pat cs

/-- The link target the default branch of parse_text_urls derives from a
match: if the email group participated, is truthy and does not contain the
substring mailto, synthesize a mailto: prefix, else take group(1).  Accessing
the email group on a pattern without it raises (none). -/
def defaultUrl (m : PyMatch) : Option (Option (List Char)) :=
  match m.emailg with
  | EmailGroup.noGroup => none
  | EmailGroup.unmatched => some m.g1
  | EmailGroup.matched e =>
    if !e.isEmpty && !(containsSeq ("mailto".toList) e) then
      some (some ("mailto:".toList ++ e))
    else some m.g1

/-- The chunk-building loop of parse_text_urls over the match list: text
strictly between matches becomes a plain chunk, each match a url-only chunk
(group(0) verbatim when a custom pattern was passed). -/
def ptuGo (mesg : List Char) (custom : Bool) : List PyMatch → Nat → Option (List Chunk)
  | [], loc =>
    some (if loc < mesg.length then
            [Chunk.mk (Markup.text (strSlice mesg loc mesg.length)) none]
          else [])
  | m :: rest, loc =>
    let pre := if loc < m.mstart then
                 [Chunk.mk (Markup.text (strSlice mesg loc m.mstart)) none]
               else []
    let urlOpt := if custom then some (some m.g0) else defaultUrl m
    match urlOpt with
    | none => none
    | some u =>
      (ptuGo mesg custom rest m.mend).map (fun tail =>
        pre ++ Chunk.mk Markup.null u :: tail)

/-- parse_text_urls.  The module-global URLRE is threaded explicitly: st is
its value before the call and the second component of the result its value
after (the source rebinds the global to the freshly compiled pattern whenever
the regex argument is passed, and never restores it).  The first component is
the chunk list, none when the call raises. -/
def parse_text_urls (st : Matcher) (mesg : List Char) (regex : Option Matcher) :
    Option (List Chunk) × Matcher :=
  let st' := match regex with | some r => r | none => st
  (ptuGo mesg regex.isSome (st'.finditer mesg) 0, st')

/-! ## extract_with_context

The four while loops of extract_with_context are embedded as structural
recursions on an explicit fuel argument.  In every loop the Python bounds
check start+length < len(lst) is rendered as lst.get? returning some; the
fuel only bounds the iteration count and each entry point below passes a fuel
large enough that it is never the binding constraint (extendGo and the two
lookahead loops run at most budget-many iterations; slideGo and growGo
strictly increase start+length, so lst.length iterations suffice). -/

/-- The first loop: extend to the next match — grow length while it stays
below before_context+1 and the line entering the window is not a match. -/
def extendGo (lst : List α) (pred : α → Bool) (bc start : Nat) :
    Nat → Nat → Nat
  | 0, length => length
  | fuel+1, length =>
    match lst.get? (start + length) with
    | some a =>
      if length < bc + 1 ∧ ¬ pred a then extendGo lst pred bc start fuel (length + 1)
      else length
    | none => length

/-- The second loop: slide to the next match — advance start, window length
fixed, while the line at the window end is not a match. -/
def slideGo (lst : List α) (pred : α → Bool) (length : Nat) :
    Nat → Nat → Nat
  | 0, start => start
  | fuel+1, start =>
    match lst.get? (start + length) with
    | some a =>
      if ¬ pred a then slideGo lst pred length fuel (start + 1) else start
    | none => start

/-- The after-context lookahead: grow extendlength while it stays below
after_context+1 and no match is found. -/
def afterGo (lst : List α) (pred : α → Bool) (ac base : Nat) :
    Nat → Nat → Nat
  | 0, el => el
  | fuel+1, el =>
    match lst.get? (base + el) with
    | some a =>
      if el < ac + 1 ∧ ¬ pred a then afterGo lst pred ac base fuel (el + 1)
      else el
    | none => el

/-- The speculative before-context lookahead of the next window: grow
extendlength while it stays strictly below before_context and no match is
found. -/
def beforeGo (lst : List α) (pred : α → Bool) (bc base : Nat) :
    Nat → Nat → Nat
  | 0, el => el
  | fuel+1, el =>
    match lst.get? (base + el) with
    | some a =>
      if el < bc ∧ ¬ pred a then beforeGo lst pred bc base fuel (el + 1)
      else el
    | none => el

/-- The third loop: repeatedly absorb the match at the window end, its after
context, and — when the lookahead beyond it reaches another match — the gap
that would have been the next window's before context. -/
def growGo (lst : List α) (pred : α → Bool) (bc ac start : Nat) :
    Nat → Nat → Nat
  | 0, length => length
  | fuel+1, length =>
    match lst.get? (start + length) with
    | none => length
    | some a =>
      if pred a then
        let el := afterGo lst pred ac (start + length) (ac + 1) 1
        let len1 := length + el
        let len2 :=
          match lst.get? (start + len1) with
          | some b =>
            if ¬ pred b then
              let el2 := beforeGo lst pred bc (start + len1) bc 1
              match lst.get? (start + len1 + el2) with
              | some c => if pred c then len1 + el2 else len1
              | none => len1
            else len1
          | none => len1
        growGo lst pred bc ac start fuel len2
      else length

/-- The outer loop of extract_with_context, producing the (start, length)
spans of the emitted windows. -/
def ewcGo (lst : List α) (pred : α → Bool) (bc ac : Nat) :
    Nat → Nat → List (Nat × Nat)
  | 0, _ => []
  | fuel+1, start =>
    if start < lst.length then
      let len1 := extendGo lst pred bc start (bc + 1) 0
      let start1 := slideGo lst pred len1 lst.length start
      if start1 + len1 = lst.length then []
      else
        let len2 := growGo lst pred bc ac start1 lst.length len1
        (if 0 < len2 ∧ start1 + len2 ≤ lst.length then [(start1, len2)] else []) ++
          ewcGo lst pred bc ac fuel (start1 + len2)
    else []

/-- The spans of the windows extract_with_context emits. -/
def ewcSpans (lst : List α) (pred : α → Bool) (bc ac : Nat) : List (Nat × Nat) :=
  ewcGo lst pred bc ac (lst.length + 1) 0

/-- extract_with_context: each emitted span becomes the triple of the slice
lst[start : start+length] with the usedfirst and usedlast flags. -/
def extract_with_context (lst : List α) (pred : α → Bool)
    (before_context after_context : Nat) : List (List α × Bool × Bool) :=
  (ewcSpans lst pred before_context after_context).map (fun p =>
    ((lst.drop p.1).take p.2, decide (p.1 = 0), decide (p.1 + p.2 = lst.length)))

/-! ## HTMLChunker

The chunker is a state machine driven by the events html.parser.HTMLParser
delivers (start tag, end tag, data, character reference, entity reference).
The parser itself is standard-library code outside the examined sources; it is
modelled as the event list fed to the handlers.  Python list stacks are
modelled with the most recent element at the head: append is cons, [-1] is
head, del [-1] is tail. -/

/-- The events a markup parser delivers to the chunker. -/
inductive HEvent where
  | starttag : String → List (String × Option (List Char)) → HEvent
  | startendtag : String → List (String × Option (List Char)) → HEvent
  | endtag : String → HEvent
  | data : List Char → HEvent
  | charref : List Char → HEvent
  | entityref : List Char → HEvent
deriving DecidableEq, Repr

/-- The mutable state of an HTMLChunker instance. -/
structure HcState where
  rval : List (List Chunk)
  at_para_start : Bool
  trailing_space : Bool
  style_stack : List (List (List Char))
  anchor_stack : List (Option (List Char))
  list_stack : List (String × Nat)
  in_style_or_script : Bool
deriving DecidableEq, Repr

/-- The state built by HTMLChunker.__init__. -/
def initState : HcState :=
  { rval := []
    at_para_start := true
    trailing_space := false
    style_stack := [[]]
    anchor_stack := [none]
    list_stack := []
    in_style_or_script := false }

/-- isheadertag: a two-character tag h followed by a digit. -/
def isheadertag (tag : String) : Bool :=
  match tag.toList with
  | [a, b] => a = 'h' && b.isDigit
  | _ => false

/-- tag_styles: b renders bold, i renders italic. -/
def tag_styles : List (String × List Char) :=
  [("b", "bold".toList), ("i", "italic".toList)]

/-- ul_tags, the bullet glyph cycle. -/
def ul_tags : List Char := ['*', '+', '-']

/-- cur_url: the innermost anchor target.  The anchor stack provably never
loses its base entry (see the stack invariant below), so the default never
fires on a reachable state. -/
def cur_url (st : HcState) : Option (List Char) :=
  st.anchor_stack.headD none

/-- The top of the style stack. -/
def curStyles (st : HcState) : List (List Char) :=
  st.style_stack.headD []

/-- findattr: the value of the first attribute with the given name.  Python
returns None both when the attribute is absent and when it has no value; the
chunker treats the two identically. -/
def findattr (attrs : List (String × Option (List Char))) (searchattr : String) :
    Option (List Char) :=
  match attrs.find? (fun av => av.1 = searchattr) with
  | some av => av.2
  | none => none

/-- Append a chunk to the last paragraph.  Python indexes rval[-1], which is
nonempty whenever the chunker appends (at_para_start has just forced a fresh
paragraph, or it is false, which only happens after a paragraph exists). -/
def appendLastPara : List (List Chunk) → Chunk → List (List Chunk)
  | [], c => [[c]]
  | [p], c => [p ++ [c]]
  | p :: ps, c => p :: appendLastPara ps c

/-- add_chunk. -/
def add_chunk (chunk : Chunk) (st : HcState) : HcState :=
  let r :=
    if st.at_para_start then st.rval ++ [[]]
    else if st.trailing_space then
      appendLastPara st.rval (Chunk.mk (Markup.text [' ']) (cur_url st))
    else st.rval
  { st with rval := appendLastPara r chunk
            at_para_start := false
            trailing_space := false }

/-- end_para. -/
def end_para (st : HcState) : HcState :=
  let st1 :=
    if st.at_para_start then { st with rval := st.rval ++ [[]] }
    else { st with at_para_start := true }
  let st2 := { st1 with trailing_space := false }
  if st2.list_stack.isEmpty then st2
  else
    add_chunk
      (Chunk.mk (Markup.text (List.replicate (3 * st2.list_stack.length) ' '))
        (cur_url st2)) st2

/-- Right-justify a counter to two digits and add a dot, as the percent-2d
format does. -/
def fmtCounter (counter : Nat) : List Char :=
  (if counter < 10 then [' '] else []) ++ Nat.toDigits 10 counter ++ ['.']

/-- end_list_para. -/
def end_list_para (st : HcState) : HcState :=
  let st1 :=
    if st.at_para_start then { st with rval := st.rval ++ [[]] }
    else st
  match st1.list_stack with
  | [] => end_para st1
  | (tag, counter) :: rest =>
    if tag = "ul" then
      let depth := (st1.list_stack.filter (fun t => t.1 = tag)).length
      let glyph := ul_tags.getD (depth % ul_tags.length) '*'
      add_chunk (Chunk.mk (Markup.text [glyph, ' ', ' ']) (cur_url st1)) st1
    else
      let st2 := { st1 with list_stack := (tag, counter + 1) :: rest }
      add_chunk (Chunk.mk (Markup.text (fmtCounter counter)) (cur_url st2)) st2

/-- The collapse of whitespace runs performed on text data:
a space joining str.split(). -/
def pySplitGo : List Char → List Char → List (List Char)
  | [], acc => if acc.isEmpty then [] else [acc.reverse]
  | c :: cs, acc =>
    if c.isWhitespace then
      if acc.isEmpty then pySplitGo cs [] else acc.reverse :: pySplitGo cs []
    else pySplitGo cs (c :: acc)

/-- str.split() with no argument: split on whitespace runs, dropping empties. -/
def pySplit (s : List Char) : List (List Char) := pySplitGo s []

/-- A space joined over the split parts. -/
def joinSpace : List (List Char) → List Char
  | [] => []
  | [p] => p
  | p :: ps => p ++ ' ' :: joinSpace ps

/-- The cleaned text of a data event. -/
def cleanData (s : List Char) : List Char := joinSpace (pySplit s)

/-- Lexicographic comparison of style names (Python string order). -/
def lexLe : List Char → List Char → Bool
  | [], _ => true
  | _ :: _, [] => false
  | a :: as, b :: bs => if a = b then lexLe as bs else decide (a < b)

/-- Insertion into a lexicographically sorted list. -/
def insLex (x : List Char) : List (List Char) → List (List Char)
  | [] => [x]
  | y :: ys => if lexLe x y then x :: y :: ys else y :: insLex x ys

/-- sorted() over style names. -/
def sortLex (l : List (List Char)) : List (List Char) := l.foldr insLex []

/-- The union style_stack[-1] | {new}: sets are modelled as duplicate-free
lists (ordering is irrelevant, the styles are sorted at use). -/
def styleUnion (s : List (List Char)) (x : List Char) : List (List Char) :=
  if s.contains x then s else x :: s

/-- The style tag of a data chunk: msgtext, or anchor inside a link, with the
sorted active styles appended after a colon. -/
def styleTag (st : HcState) : List Char :=
  let base := if cur_url st = none then "msgtext".toList else "anchor".toList
  if (curStyles st).isEmpty then base
  else base ++ ':' :: (sortLex (curStyles st)).flatten

/-- handle_data. -/
def handle_data (data : List Char) (st : HcState) : HcState :=
  if st.in_style_or_script then st
  else
    let future_trailing_space :=
      match data.getLast? with
      | some c => c.isWhitespace
      | none => false
    let st1 :=
      match data.head? with
      | some c => if c.isWhitespace then { st with trailing_space := true } else st
      | none => st
    let chunk := Chunk.mk (Markup.styled (styleTag st1) (cleanData data)) (cur_url st1)
    let st2 := add_chunk chunk st1
    { st2 with trailing_space := future_trailing_space }

/-- handle_starttag. -/
def handle_starttag (tag : String) (attrs : List (String × Option (List Char)))
    (st : HcState) : HcState :=
  if tag = "a" then
    { st with anchor_stack := findattr attrs "href" :: st.anchor_stack }
  else if tag = "ul" ∨ tag = "ol" then
    end_para { st with list_stack := (tag, 1) :: st.list_stack }
  else if (tag_styles.lookup tag).isSome then
    { st with style_stack :=
        styleUnion (curStyles st) ((tag_styles.lookup tag).getD []) :: st.style_stack }
  else if isheadertag tag then
    { st with style_stack :=
        styleUnion (curStyles st) ("bold".toList) :: st.style_stack }
  else if tag = "p" ∨ tag = "br" then
    end_para st
  else if tag = "img" then
    let alt := (findattr attrs "alt").getD ("[IMG]".toList)
    let src0 := findattr attrs "src"
    let src :=
      match src0 with
      | some u =>
        if isPrefixAt ("http://".toList) u 0 || isPrefixAt ("https://".toList) u 0
        then some u else none
      | none => none
    match src with
    | some u =>
      let st1 := handle_data alt { st with anchor_stack := some u :: st.anchor_stack }
      { st1 with anchor_stack := st1.anchor_stack.tail }
    | none => handle_data alt st
  else if tag = "li" then
    end_list_para st
  else if tag = "style" ∨ tag = "script" then
    { st with in_style_or_script := true }
  else st

/-- handle_startendtag: self-closing p, br, li and img act like start tags. -/
def handle_startendtag (tag : String) (attrs : List (String × Option (List Char)))
    (st : HcState) : HcState :=
  if tag = "p" ∨ tag = "br" ∨ tag = "li" ∨ tag = "img" then
    handle_starttag tag attrs st
  else st

/-- handle_endtag: every pop is guarded so the stacks never drop below their
base entry. -/
def handle_endtag (tag : String) (st : HcState) : HcState :=
  if tag = "a" then
    if 1 < st.anchor_stack.length then
      { st with anchor_stack := st.anchor_stack.tail }
    else st
  else if (tag_styles.lookup tag).isSome then
    if 1 < st.style_stack.length then
      { st with style_stack := st.style_stack.tail }
    else st
  else if tag = "ul" ∨ tag = "ol" then
    end_para
      (if 0 < st.list_stack.length then { st with list_stack := st.list_stack.tail }
       else st)
  else if isheadertag tag then
    end_para
      (if 1 < st.style_stack.length then { st with style_stack := st.style_stack.tail }
       else st)
  else if tag = "style" ∨ tag = "script" then
    { st with in_style_or_script := false }
  else st

/-- extrachars: the substitution table for code points at or above 128. -/
def extrachars : List (Nat × List Char) :=
  [(8212, "--".toList), (8217, "'".toList), (8220, "``".toList),
   (8221, "''".toList), (8230, "...".toList)]

/-- Python int() on a decimal digit string; none models the ValueError raised
on anything else (the sign and whitespace forms never reach this handler). -/
def pyIntDec (s : List Char) : Option Nat :=
  if !s.isEmpty && s.all Char.isDigit then
    some (s.foldl (fun a c => a * 10 + (c.toNat - 48)) 0)
  else none

/-- The value of a hexadecimal digit. -/
def hexVal (c : Char) : Nat :=
  if c.isDigit then c.toNat - 48
  else if 'a' ≤ c ∧ c ≤ 'f' then c.toNat - 87
  else c.toNat - 55

/-- Python int(s, 16) on a hex digit string; none models the ValueError. -/
def pyIntHex (s : List Char) : Option Nat :=
  if !s.isEmpty && s.all (fun c => c.isDigit || ('a' ≤ c && c ≤ 'f') || ('A' ≤ c && c ≤ 'F')) then
    some (s.foldl (fun a c => a * 16 + hexVal c) 0)
  else none

/-- handle_charref: none models the exception escaping the handler (name[0]
on an empty name, or int() on a string it cannot parse — in particular a
hexadecimal reference whose marker is an uppercase X). -/
def handle_charref (name : List Char) (st : HcState) : Option HcState :=
  match name with
  | [] => none
  | c0 :: rest =>
    let charOpt := if c0 = 'x' then pyIntHex rest else pyIntDec (c0 :: rest)
    match charOpt with
    | none => none
    | some char =>
      let out :=
        if char < 128 then [Char.ofNat char]
        else
          match extrachars.lookup char with
          | some sub => sub
          | none => '&' :: '#' :: name ++ [';']
      some (handle_data out st)

/-- entities: the named entity table. -/
def entities : List (String × List Char) :=
  [("nbsp", " ".toList), ("lt", "<".toList), ("gt", ">".toList),
   ("amp", "&".toList), ("ldquo", "``".toList), ("rdquo", "''".toList),
   ("apos", "'".toList)]

/-- handle_entityref. -/
def handle_entityref (name : List Char) (st : HcState) : HcState :=
  match entities.lookup (String.mk name) with
  | some sub => handle_data sub st
  | none => handle_data ('&' :: name ++ [';']) st

/-- Dispatch one parser event to its handler. -/
def handleEvent : HEvent → HcState → Option HcState
  | HEvent.starttag t attrs, st => some (handle_starttag t attrs st)
  | HEvent.startendtag t attrs, st => some (handle_startendtag t attrs st)
  | HEvent.endtag t, st => some (handle_endtag t st)
  | HEvent.data s, st => some (handle_data s st)
  | HEvent.charref n, st => handle_charref n st
  | HEvent.entityref n, st => some (handle_entityref n st)

/-- Feed a sequence of parser events to the chunker. -/
def runEvents : List HEvent → HcState → Option HcState
  | [], st => some st
  | e :: es, st => (handleEvent e st).bind (runEvents es)

/-- The most recently emitted chunk. -/
def lastChunk (st : HcState) : Option Chunk :=
  st.rval.getLast?.bind List.getLast?

/-- The event sequence html.parser delivers for an ordered list with one
item: ol open, li open, the item text, li close, ol close. -/
def olEvents : List HEvent :=
  [HEvent.starttag "ol" [], HEvent.starttag "li" [], HEvent.data ("x".toList),
   HEvent.endtag "li", HEvent.endtag "ol"]

/-- The event sequence for an image without an external source inside an
anchor. -/
def imgAnchorEvents : List HEvent :=
  [HEvent.starttag "a" [("href", some ("http://x".toList))],
   HEvent.starttag "img" [("src", some ("ftp://y".toList)), ("alt", some ("z".toList))]]


/-! ## Theorems -/

theorem take_ne_nil {l : List Char} {n : Nat} (hl : l ≠ []) (hn : n ≠ 0) :
    l.take n ≠ [] := by
  cases l with
  | nil => exact absurd rfl hl
  | cons a t =>
    cases n with
    | zero => exact absurd rfl hn
    | succ k => simp

theorem emailCore_lt {s : List Char} {j e : Nat} (h : emailCore s j = some e) :
    j < s.length ∧ j < e := by
  unfold emailCore at h
  simp only [] at h
  split at h
  · cases h
  · rename_i hm
    have hlen : 1 ≤ runLen isEmailChar s j := Nat.one_le_iff_ne_zero.mpr hm
    have hjs : j < s.length := by
      have h1 : ((s.drop j).takeWhile isEmailChar).length ≤ (s.drop j).length :=
        (List.takeWhile_prefix _).length_le
      have h2 : (s.drop j).length = s.length - j := List.length_drop _ _
      unfold runLen at hlen
      omega
    refine ⟨hjs, ?_⟩
    split at h
    · rename_i c hg
      split at h
      · split at h
        · cases h
        · have he := Option.some.inj h
          omega
      · cases h
    · cases h

theorem matchEmail_lt {s : List Char} {j e : Nat} (h : matchEmail s j = some e) :
    j < s.length ∧ j < e := by
  unfold matchEmail at h
  by_cases hp : (isPrefixAt ("mailto:".toList) s j : Bool)
  · rw [if_pos hp] at h
    rcases hc : emailCore s (j + 7) with _ | e7
    · rw [hc] at h
      exact emailCore_lt h
    · rw [hc] at h
      have := emailCore_lt hc
      have he : e = e7 := (Option.some.inj h).symm
      omega
  · rw [if_neg hp] at h
    exact emailCore_lt h

theorem matchAt_email_g1 {s : List Char} {i : Nat} {m : PyMatch} {e : List Char}
    (h : matchAt s i = some m) (he : m.emailg = EmailGroup.matched e) :
    m.g1 = some e ∧ e ≠ [] := by
  unfold matchAt at h
  obtain ⟨j, _, hj⟩ := List.exists_of_findSome?_eq_some h
  rcases hg : group1At s j with _ | pe
  · rw [hg] at hj; cases hj
  · rw [hg] at hj
    simp only [Option.map_some] at hj
    have hm := Option.some.inj hj
    subst hm
    simp only [] at he
    unfold group1At at hg
    rcases hh : matchHttp s j with _ | eh
    · rw [hh] at hg
      rcases hgu : matchGuessed s j with _ | eg
      · rw [hgu] at hg
        rcases hem : matchEmail s j with _ | ee
        · rw [hem] at hg; cases hg
        · rw [hem] at hg
          have hpe := Option.some.inj hg
          subst hpe
          simp only [] at he ⊢
          have hee := EmailGroup.matched.inj he
          subst hee
          refine ⟨rfl, ?_⟩
          obtain ⟨hjs, hje⟩ := matchEmail_lt hem
          unfold strSlice
          apply take_ne_nil
          · intro hd
            have : (s.drop j).length = 0 := by rw [hd]; rfl
            rw [List.length_drop] at this
            omega
          · omega
      · rw [hgu] at hg
        have hpe := Option.some.inj hg
        subst hpe
        simp at he
    · rw [hh] at hg
      have hpe := Option.some.inj hg
      subst hpe
      simp at he

theorem finditerGo_mem {s : List Char} {m : PyMatch} :
    ∀ {fuel pos : Nat}, m ∈ finditerGo s fuel pos → ∃ i, matchAt s i = some m := by
  intro fuel
  induction fuel with
  | zero => intro pos h; cases h
  | succ k ih =>
    intro pos h
    unfold finditerGo at h
    by_cases hle : pos ≤ s.length
    · rw [if_pos hle] at h
      rcases hm : matchAt s pos with _ | m0
      · rw [hm] at h
        exact ih h
      · rw [hm] at h
        rcases List.mem_cons.mp h with rfl | h
        · exact ⟨pos, hm⟩
        · exact ih h
    · rw [if_neg hle] at h; cases h

/-- C7 counterexample: on the empty line the default grammar finds no match,
yet parse_text_urls returns zero chunks, not one chunk carrying the (empty)
input line: the final chunk is only appended when loc < len(mesg). -/
theorem empty_line_zero_chunks_cex :
    URLRE.finditer [] = [] ∧
    (parse_text_urls URLRE [] none).1 = some [] ∧
    some ([] : List Chunk) ≠ some [Chunk.mk (Markup.text []) none] := by
  refine ⟨by decide, by decide, by decide⟩

/-- C7 (amended): for every nonempty line on which the default grammar finds
no match, parse_text_urls returns exactly one chunk whose markup is the line
unchanged and whose url is absent (the empty line instead yields zero
chunks). -/
theorem no_match_single_chunk (mesg : List Char)
    (h : URLRE.finditer mesg = []) (hne : mesg ≠ []) :
    (parse_text_urls URLRE mesg none).1 =
      some [Chunk.mk (Markup.text mesg) none] := by
  have hpos : 0 < mesg.length := List.length_pos.mpr hne
  unfold parse_text_urls
  simp only [Option.isSome_none, h]
  unfold ptuGo
  have hsl : strSlice mesg 0 mesg.length = mesg := by
    unfold strSlice
    simp
  rw [if_pos hpos, hsl]

/-- Witness for no_match_single_chunk at a concrete matchless line. -/
theorem no_match_single_chunk_witness :
    (parse_text_urls URLRE ("hello world".toList) none).1 =
      some [Chunk.mk (Markup.text ("hello world".toList)) none] :=
  no_match_single_chunk ("hello world".toList) (by decide) (by decide)

/-- C3 counterexample: parse_text_urls keeps cross-call state in the module
global URLRE.  A fresh default call on linuxtoday.com yields one link chunk;
after an earlier call that passed the custom pattern zzz, the same
default-argument call runs with the rebound global and yields a plain chunk
instead. -/
theorem parse_text_urls_state_cex :
    (parse_text_urls URLRE ("linuxtoday.com".toList) none).1 ≠
      (parse_text_urls
        (parse_text_urls URLRE ("x".toList) (some (literalMatcher ("zzz".toList)))).2
        ("linuxtoday.com".toList) none).1 := by
  decide

/-- C3 (amended): parse_text_urls does hold cross-call state.  A call passing
a custom pattern rebinds the module-global matcher and never restores it, so
a later call without the regex argument uses the custom pattern: with the
default state, linuxtoday.com produces a single link chunk, while after the
custom-pattern call the very same invocation produces a single plain text
chunk. -/
theorem parse_text_urls_state_leak :
    (parse_text_urls URLRE ("linuxtoday.com".toList) none).1 =
      some [Chunk.mk Markup.null (some ("linuxtoday.com".toList))] ∧
    (parse_text_urls
        (parse_text_urls URLRE ("x".toList) (some (literalMatcher ("zzz".toList)))).2
        ("linuxtoday.com".toList) none).1 =
      some [Chunk.mk (Markup.text ("linuxtoday.com".toList)) none] := by
  refine ⟨by decide, by decide⟩

/-- C4 counterexample: in the line linuxtoday.com is down the bare domain is
followed by further text, and parse_text_urls with the default pattern emits
no link chunk at all — the whole line comes back as one plain chunk, because
the guessing sub-pattern carries a dollar anchor. -/
theorem guessed_domain_midline_cex :
    (parse_text_urls URLRE ("linuxtoday.com is down".toList) none).1 =
      some [Chunk.mk (Markup.text ("linuxtoday.com is down".toList)) none] ∧
    ((parse_text_urls URLRE ("linuxtoday.com is down".toList) none).1.getD
        []).all (fun c => c.url = none) = true := by
  refine ⟨by decide, by decide⟩

/-- C4 (amended): a bare domain is recognized only when it terminates the
line — GUESSEDURLPATTERN is anchored at end of string, so a trailing domain
becomes a link chunk while the same domain followed by further text is left
inside a plain chunk. -/
theorem guessed_domain_end_anchored :
    (parse_text_urls URLRE ("linuxtoday.com is down".toList) none).1 =
      some [Chunk.mk (Markup.text ("linuxtoday.com is down".toList)) none] ∧
    (parse_text_urls URLRE ("down for linuxtoday.com".toList) none).1 =
      some [Chunk.mk (Markup.text ("down for ".toList)) none,
            Chunk.mk Markup.null (some ("linuxtoday.com".toList))] := by
  refine ⟨by decide, by decide⟩

/-- C5 counterexample: the matched email a@mailtox lacks a mailto: prefix,
but the source only tests substring containment of mailto, so no prefix is
synthesized and the url is the matched text itself rather than the
mailto:-prefixed form the claim requires. -/
theorem mailto_substring_cex :
    (parse_text_urls URLRE ("a@mailtox".toList) none).1 =
      some [Chunk.mk Markup.null (some ("a@mailtox".toList))] ∧
    (some ("a@mailtox".toList) : Option (List Char)) ≠
      some ("mailto:".toList ++ "a@mailtox".toList) := by
  refine ⟨by decide, by decide⟩

/-- C5 (amended): for every default-pattern match whose email group
participated, group(1) is exactly the matched email text, and the derived url
prepends mailto: exactly when the matched text does not contain mailto as a
substring (in particular when it lacks the prefix but contains the substring
elsewhere, nothing is prepended); the two spec examples hold: foo@bar.com
yields mailto:foo@bar.com and mailto:foo@bar.com stays unchanged. -/
theorem email_mailto_synthesis (mesg : List Char) (m : PyMatch) (e : List Char)
    (hm : m ∈ URLRE.finditer mesg) (he : m.emailg = EmailGroup.matched e) :
    m.g1 = some e ∧ e ≠ [] ∧
    defaultUrl m =
      some (some (if containsSeq ("mailto".toList) e then e
                  else "mailto:".toList ++ e)) ∧
    (parse_text_urls URLRE ("foo@bar.com".toList) none).1 =
      some [Chunk.mk Markup.null (some ("mailto:foo@bar.com".toList))] ∧
    (parse_text_urls URLRE ("mailto:foo@bar.com".toList) none).1 =
      some [Chunk.mk Markup.null (some ("mailto:foo@bar.com".toList))] := by
  obtain ⟨i, hi⟩ := finditerGo_mem hm
  obtain ⟨hg1, hne⟩ := matchAt_email_g1 hi he
  refine ⟨hg1, hne, ?_, by decide, by decide⟩
  have hee : e.isEmpty = false := by
    cases e with
    | nil => exact absurd rfl hne
    | cons a t => rfl
  unfold defaultUrl
  rw [he, hg1]
  simp only [hee, Bool.not_false, Bool.true_and]
  by_cases hc : containsSeq ['m', 'a', 'i', 'l', 't', 'o'] e
  · simp [hc]
  · simp [hc]

/-- Witness for email_mailto_synthesis at the match URLRE finds in
foo@bar.com. -/
theorem email_mailto_synthesis_witness :
    (PyMatch.mk 0 11 ("foo@bar.com".toList) (some ("foo@bar.com".toList))
        (EmailGroup.matched ("foo@bar.com".toList))).g1 =
      some ("foo@bar.com".toList) ∧
    ("foo@bar.com".toList ≠ []) ∧
    defaultUrl
        (PyMatch.mk 0 11 ("foo@bar.com".toList) (some ("foo@bar.com".toList))
          (EmailGroup.matched ("foo@bar.com".toList))) =
      some (some (if containsSeq ("mailto".toList) ("foo@bar.com".toList) then
                    "foo@bar.com".toList
                  else "mailto:".toList ++ "foo@bar.com".toList)) ∧
    (parse_text_urls URLRE ("foo@bar.com".toList) none).1 =
      some [Chunk.mk Markup.null (some ("mailto:foo@bar.com".toList))] ∧
    (parse_text_urls URLRE ("mailto:foo@bar.com".toList) none).1 =
      some [Chunk.mk Markup.null (some ("mailto:foo@bar.com".toList))] :=
  email_mailto_synthesis ("foo@bar.com".toList)
    (PyMatch.mk 0 11 ("foo@bar.com".toList) (some ("foo@bar.com".toList))
      (EmailGroup.matched ("foo@bar.com".toList)))
    ("foo@bar.com".toList) (by decide) (by decide)

/-- C10: handle_charref only recognizes a lowercase x as the hexadecimal
marker.  On the reference name X41 (which html.parser delivers for the valid
numeric character reference with an uppercase X) the decimal int() conversion
raises, so the handler errors instead of emitting a chunk, while the
lowercase form x41 emits the chunk A. -/
theorem charref_uppercase_hex_errors :
    handle_charref ("X41".toList) initState = none ∧
    runEvents [HEvent.charref ("X41".toList)] initState = none ∧
    ((runEvents [HEvent.charref ("x41".toList)] initState).bind lastChunk) =
      some (Chunk.mk (Markup.styled ("msgtext".toList) ("A".toList)) none) := by
  refine ⟨by decide, by decide, by decide⟩

/-- C9: the chunker emits empty Lines — feeding the events of
ol, li, x, /li, /ol to a fresh chunker leaves the first paragraph
(appended by end_para while still at paragraph start) without any chunks. -/
theorem chunker_empty_paragraph :
    ∃ st, runEvents olEvents initState = some st ∧ [] ∈ st.rval := by
  refine ⟨_, rfl, ?_⟩
  decide

/-- C6 counterexample: an img without an external src inside an open anchor
emits its alt text with the url of the enclosing anchor, not with an absent
url as the claim requires for every enclosing markup. -/
theorem img_anchor_url_cex :
    ((runEvents imgAnchorEvents initState).bind lastChunk) =
      some (Chunk.mk (Markup.styled ("anchor".toList) ("z".toList))
        (some ("http://x".toList))) ∧
    (some ("http://x".toList) : Option (List Char)) ≠ none := by
  refine ⟨by decide, by decide⟩

theorem add_chunk_stacks (c : Chunk) (st : HcState) :
    (add_chunk c st).anchor_stack = st.anchor_stack ∧
    (add_chunk c st).style_stack = st.style_stack :=
  ⟨rfl, rfl⟩

theorem end_para_stacks (st : HcState) :
    (end_para st).anchor_stack = st.anchor_stack ∧
    (end_para st).style_stack = st.style_stack := by
  unfold end_para add_chunk
  by_cases h1 : st.at_para_start = true <;>
    by_cases h2 : st.list_stack.isEmpty = true <;>
      simp [h1, h2]

theorem end_list_para_stacks (st : HcState) :
    (end_list_para st).anchor_stack = st.anchor_stack ∧
    (end_list_para st).style_stack = st.style_stack := by
  obtain ⟨rv, ap, ts, ss, an, ls, iss⟩ := st
  cases ap <;> rcases ls with _ | ⟨⟨tag, counter⟩, rest⟩ <;>
    try exact end_para_stacks _
  all_goals by_cases ht : tag = "ul" <;> simp [end_list_para, add_chunk, ht]

theorem handle_data_stacks (d : List Char) (st : HcState) :
    (handle_data d st).anchor_stack = st.anchor_stack ∧
    (handle_data d st).style_stack = st.style_stack := by
  unfold handle_data add_chunk
  by_cases h1 : st.in_style_or_script = true
  · simp [h1]
  · rcases hh : d.head? with _ | c <;> simp [h1, hh]
    by_cases hc : c.isWhitespace = true <;> simp [hc]

theorem end_para_anchor (st : HcState) :
    (end_para st).anchor_stack = st.anchor_stack := (end_para_stacks st).1

theorem end_para_style (st : HcState) :
    (end_para st).style_stack = st.style_stack := (end_para_stacks st).2

theorem end_list_para_anchor (st : HcState) :
    (end_list_para st).anchor_stack = st.anchor_stack := (end_list_para_stacks st).1

theorem end_list_para_style (st : HcState) :
    (end_list_para st).style_stack = st.style_stack := (end_list_para_stacks st).2

theorem handle_data_anchor (d : List Char) (st : HcState) :
    (handle_data d st).anchor_stack = st.anchor_stack := (handle_data_stacks d st).1

theorem handle_data_style (d : List Char) (st : HcState) :
    (handle_data d st).style_stack = st.style_stack := (handle_data_stacks d st).2

theorem handle_starttag_stacks (tag : String)
    (attrs : List (String × Option (List Char))) (st : HcState)
    (ha : 1 ≤ st.anchor_stack.length) (hs : 1 ≤ st.style_stack.length) :
    1 ≤ (handle_starttag tag attrs st).anchor_stack.length ∧
    1 ≤ (handle_starttag tag attrs st).style_stack.length := by
  unfold handle_starttag
  split_ifs with h1 h2 h3 h4 h5 h6 h7 h8
  · exact ⟨by simp, hs⟩
  · exact ⟨by rw [end_para_anchor]; exact ha, by rw [end_para_style]; exact hs⟩
  · exact ⟨ha, by simp⟩
  · exact ⟨ha, by simp⟩
  · exact ⟨by rw [end_para_anchor]; exact ha, by rw [end_para_style]; exact hs⟩
  · dsimp only
    split
    · constructor
      · simp only [handle_data_anchor]
        simpa using ha
      · simp only [handle_data_style]
        exact hs
    · exact ⟨by rw [handle_data_anchor]; exact ha,
        by rw [handle_data_style]; exact hs⟩
  · exact ⟨by rw [end_list_para_anchor]; exact ha,
      by rw [end_list_para_style]; exact hs⟩
  · exact ⟨ha, hs⟩
  · exact ⟨ha, hs⟩

theorem handle_endtag_stacks (tag : String) (st : HcState)
    (ha : 1 ≤ st.anchor_stack.length) (hs : 1 ≤ st.style_stack.length) :
    1 ≤ (handle_endtag tag st).anchor_stack.length ∧
    1 ≤ (handle_endtag tag st).style_stack.length := by
  unfold handle_endtag
  split_ifs <;> constructor <;>
    (first
      | omega
      | (simp only [end_para_anchor, end_para_style, List.length_tail]; omega))

theorem handle_startendtag_stacks (tag : String)
    (attrs : List (String × Option (List Char))) (st : HcState)
    (ha : 1 ≤ st.anchor_stack.length) (hs : 1 ≤ st.style_stack.length) :
    1 ≤ (handle_startendtag tag attrs st).anchor_stack.length ∧
    1 ≤ (handle_startendtag tag attrs st).style_stack.length := by
  unfold handle_startendtag
  split_ifs with h1
  · exact handle_starttag_stacks tag attrs st ha hs
  · exact ⟨ha, hs⟩

theorem handle_charref_stacks (name : List Char) (st st' : HcState)
    (h : handle_charref name st = some st')
    (ha : 1 ≤ st.anchor_stack.length) (hs : 1 ≤ st.style_stack.length) :
    1 ≤ st'.anchor_stack.length ∧ 1 ≤ st'.style_stack.length := by
  unfold handle_charref at h
  split at h
  · cases h
  · rename_i c0 rest
    simp only [] at h
    rcases hco : (if c0 = 'x' then pyIntHex rest else pyIntDec (c0 :: rest)) with _ | char
    · rw [hco] at h
      exact Option.noConfusion h
    · rw [hco] at h
      simp only [] at h
      obtain rfl := Option.some.inj h
      exact ⟨by rw [handle_data_anchor]; exact ha,
        by rw [handle_data_style]; exact hs⟩

theorem handle_entityref_stacks (name : List Char) (st : HcState)
    (ha : 1 ≤ st.anchor_stack.length) (hs : 1 ≤ st.style_stack.length) :
    1 ≤ (handle_entityref name st).anchor_stack.length ∧
    1 ≤ (handle_entityref name st).style_stack.length := by
  unfold handle_entityref
  split
  · exact ⟨by rw [handle_data_anchor]; exact ha,
      by rw [handle_data_style]; exact hs⟩
  · exact ⟨by rw [handle_data_anchor]; exact ha,
      by rw [handle_data_style]; exact hs⟩

theorem runEvents_stacks :
    ∀ (evs : List HEvent) (st st' : HcState),
      runEvents evs st = some st' →
      1 ≤ st.anchor_stack.length → 1 ≤ st.style_stack.length →
      1 ≤ st'.anchor_stack.length ∧ 1 ≤ st'.style_stack.length := by
  intro evs
  induction evs with
  | nil =>
    intro st st' h ha hs
    cases h
    exact ⟨ha, hs⟩
  | cons e es ih =>
    intro st st' h ha hs
    unfold runEvents at h
    rcases he : handleEvent e st with _ | st1
    · rw [he] at h; cases h
    · rw [he] at h
      simp only [Option.some_bind] at h
      have h1 : 1 ≤ st1.anchor_stack.length ∧ 1 ≤ st1.style_stack.length := by
        cases e with
        | starttag t attrs =>
          have := Option.some.inj he
          subst this
          exact handle_starttag_stacks t attrs st ha hs
        | startendtag t attrs =>
          have := Option.some.inj he
          subst this
          exact handle_startendtag_stacks t attrs st ha hs
        | endtag t =>
          have := Option.some.inj he
          subst this
          exact handle_endtag_stacks t st ha hs
        | data d =>
          have := Option.some.inj he
          subst this
          exact ⟨by rw [handle_data_anchor]; exact ha,
            by rw [handle_data_style]; exact hs⟩
        | charref n => exact handle_charref_stacks n st st1 he ha hs
        | entityref n =>
          have := Option.some.inj he
          subst this
          exact handle_entityref_stacks n st ha hs
      exact ih st1 st' h h1.1 h1.2

theorem headertag_shape {tag : String} (h : isheadertag tag = true) :
    ∃ b : Char, tag = String.mk ['h', b] ∧ b.isDigit = true := by
  cases tag with
  | mk d =>
    rcases d with _ | ⟨a, _ | ⟨b, _ | ⟨c, rest⟩⟩⟩
    · exact Bool.noConfusion h
    · exact Bool.noConfusion h
    · have h2 : a = 'h' ∧ b.isDigit = true := by
        unfold isheadertag at h
        simpa using h
      exact ⟨b, by rw [h2.1], h2.2⟩
    · exact Bool.noConfusion h

theorem mkHb_ne (b : Char) (t : String) (ht : t.data.head? ≠ some 'h') :
    ¬ (String.mk ['h', b] = t) := by
  intro hc
  exact ht (by rw [← hc]; rfl)

/-- C8 counterexample: an end tag for a header arriving while the style stack
is at its base is not a no-op — the pop is skipped but end_para still runs,
so a fresh chunker (whose stacks are at base) observably changes. -/
theorem header_endtag_not_noop_cex :
    initState.style_stack.length ≤ 1 ∧
    handle_endtag "h1" initState ≠ initState ∧
    (handle_endtag "h1" initState).rval = [[]] := by
  refine ⟨by decide, by decide, by decide⟩

/-- C8 (amended): after any event sequence the anchor and style stacks keep
at least their base entry; an end tag for a or for b or i whose stack is at
base is a complete no-op; a header end tag at base skips the pop (leaving the
style stack intact) but still forces a paragraph break via end_para; the end
tag handler itself is a total function, so unmatched closing tags never make
an event fail. -/
theorem chunker_stack_invariant :
    (∀ (evs : List HEvent) (st : HcState),
        runEvents evs initState = some st →
        1 ≤ st.anchor_stack.length ∧ 1 ≤ st.style_stack.length) ∧
    (∀ st : HcState, st.anchor_stack.length ≤ 1 → handle_endtag "a" st = st) ∧
    (∀ st : HcState, st.style_stack.length ≤ 1 →
        handle_endtag "b" st = st ∧ handle_endtag "i" st = st) ∧
    (∀ (tag : String) (st : HcState), isheadertag tag = true →
        st.style_stack.length ≤ 1 → handle_endtag tag st = end_para st) := by
  refine ⟨?_, ?_, ?_, ?_⟩
  · intro evs st h
    exact runEvents_stacks evs initState st h (by decide) (by decide)
  · intro st hlen
    unfold handle_endtag
    rw [if_pos rfl, if_neg (by omega)]
  · intro st hlen
    constructor
    · unfold handle_endtag
      rw [if_neg (by decide), if_pos (by decide), if_neg (by omega)]
    · unfold handle_endtag
      rw [if_neg (by decide), if_pos (by decide), if_neg (by omega)]
  · intro tag st hh hlen
    obtain ⟨b, rfl, hb⟩ := headertag_shape hh
    have hlk : tag_styles.lookup (String.mk ['h', b]) = none := rfl
    unfold handle_endtag
    rw [if_neg (mkHb_ne b "a" (by decide)),
      if_neg (show ¬((tag_styles.lookup (String.mk ['h', b])).isSome = true) by
        rw [hlk]; decide),
      if_neg (fun hor => hor.elim (mkHb_ne b "ul" (by decide))
        (mkHb_ne b "ol" (by decide))),
      if_pos hh, if_neg (by omega)]

theorem chunker_stack_invariant_witness :
    (∃ st, runEvents [HEvent.endtag "a", HEvent.starttag "b" [],
        HEvent.endtag "h2"] initState = some st ∧
      1 ≤ st.anchor_stack.length ∧ 1 ≤ st.style_stack.length) ∧
    handle_endtag "a" initState = initState ∧
    handle_endtag "b" initState = initState ∧
    handle_endtag "h1" initState = end_para initState :=
  ⟨⟨_, rfl, chunker_stack_invariant.1
      [HEvent.endtag "a", HEvent.starttag "b" [], HEvent.endtag "h2"] _ rfl⟩,
    chunker_stack_invariant.2.1 initState (by decide),
    (chunker_stack_invariant.2.2.1 initState (by decide)).1,
    chunker_stack_invariant.2.2.2 "h1" initState (by decide) (by decide)⟩

theorem appendLastPara_last : ∀ (r : List (List Chunk)) (c : Chunk),
    (appendLastPara r c).getLast?.bind List.getLast? = some c
  | [], c => rfl
  | [p], c => by
    simp [appendLastPara]
  | p :: q :: qs, c => by
    have ih := appendLastPara_last (q :: qs) c
    show ((p :: appendLastPara (q :: qs) c).getLast?.bind List.getLast?) = some c
    rcases hx : appendLastPara (q :: qs) c with _ | ⟨y, ys⟩
    · rw [hx] at ih
      exact Option.noConfusion ih
    · rw [hx] at ih
      rw [List.getLast?_cons_cons]
      exact ih

theorem lastChunk_add_chunk (c : Chunk) (st : HcState) :
    lastChunk (add_chunk c st) = some c :=
  appendLastPara_last _ c

theorem handle_data_lastChunk (d : List Char) (st : HcState)
    (hns : st.in_style_or_script = false) :
    lastChunk (handle_data d st) =
      some (Chunk.mk (Markup.styled (styleTag st) (cleanData d)) (cur_url st)) := by
  unfold handle_data
  split
  · rename_i hcontra
    rw [hns] at hcontra
    cases hcontra
  · dsimp only
    rcases hh : d.head? with _ | c
    · exact lastChunk_add_chunk _ _
    · dsimp only
      by_cases hw : c.isWhitespace = true
      · rw [if_pos hw]
        exact lastChunk_add_chunk _ _
      · rw [if_neg hw]
        exact lastChunk_add_chunk _ _

/-- C6 (amended): for an img whose src is absent or does not begin with
http:// or https://, the chunker emits the alt text ([IMG] when absent) as a
chunk carrying the currently active anchor target — so the url is absent
exactly when no enclosing anchor is active, not regardless of the enclosing
markup (and inside a style or script block nothing is emitted at all). -/
theorem img_emits_current_anchor (st : HcState)
    (attrs : List (String × Option (List Char)))
    (hns : st.in_style_or_script = false)
    (hsrc : ∀ u, findattr attrs "src" = some u →
      (isPrefixAt ("http://".toList) u 0 || isPrefixAt ("https://".toList) u 0) = false) :
    lastChunk (handle_starttag "img" attrs st) =
      some (Chunk.mk
        (Markup.styled (styleTag st)
          (cleanData ((findattr attrs "alt").getD ("[IMG]".toList))))
        (cur_url st)) := by
  unfold handle_starttag
  rw [if_neg (by decide), if_neg (by decide), if_neg (by decide),
    if_neg (by decide), if_neg (by decide), if_pos rfl]
  dsimp only
  rcases hfa : findattr attrs "src" with _ | u
  · exact handle_data_lastChunk _ _ hns
  · dsimp only
    rw [hsrc u hfa]
    exact handle_data_lastChunk _ _ hns

/-- Witness for img_emits_current_anchor on a fresh chunker and an img tag
without a src attribute. -/
theorem img_emits_current_anchor_witness :
    lastChunk (handle_starttag "img" [("alt", some ("z".toList))] initState) =
      some (Chunk.mk
        (Markup.styled (styleTag initState)
          (cleanData ((findattr [("alt", some ("z".toList))] "alt").getD
            ("[IMG]".toList))))
        (cur_url initState)) :=
  img_emits_current_anchor initState [("alt", some ("z".toList))] (by decide)
    (fun u hu => Option.noConfusion hu)

/-- C1 counterexample: on five lines where only index 2 is link-bearing, with
before_context = after_context = 1, the emitted window is not the claimed
[1,4) with both flags False. -/
theorem extract_window_start_cex :
    extract_with_context [false, false, true, false, false] (fun x => x) 1 1 ≠
      [([false, true, false], false, false)] := by
  decide

/-- C1 (amended): for a sequence of 5 lines in which only the line at index 2
satisfies the predicate, extract_with_context with before_context=1 and
after_context=1 returns exactly one window, and that window covers the
half-open range [0,4) with usedfirst=True and usedlast=False — the extend
loop runs the leading-context budget up to before_context+1 lines, so the
window keeps two leading lines and reaches index 0. -/
theorem extract_window_five_lines {α : Type _} (a b c d e : α)
    (pred : α → Bool)
    (ha : pred a = false) (hb : pred b = false) (hc : pred c = true)
    (hd : pred d = false) (he : pred e = false) :
    extract_with_context [a, b, c, d, e] pred 1 1 =
      [([a, b, c, d], true, false)] := by
  simp [extract_with_context, ewcSpans, ewcGo, extendGo, slideGo, growGo,
    afterGo, beforeGo, List.get?, ha, hb, hc, hd, he]

/-- Witness for extract_window_five_lines at the Boolean instance. -/
theorem extract_window_five_lines_witness :
    extract_with_context [false, false, true, false, false] (fun x => x) 1 1 =
      [([false, false, true, false], true, false)] :=
  extract_window_five_lines false false true false false (fun x => x)
    rfl rfl rfl rfl rfl

theorem get?_lt {l : List α} {n : Nat} {a : α} (h : l.get? n = some a) :
    n < l.length := by
  by_contra hn
  rw [List.get?_eq_none.mpr (Nat.le_of_not_lt hn)] at h
  cases h

theorem extendGo_ge (lst : List α) (pred : α → Bool) (bc start : Nat) :
    ∀ (fuel length : Nat), length ≤ extendGo lst pred bc start fuel length := by
  intro fuel
  induction fuel with
  | zero => intro length; exact Nat.le_refl _
  | succ k ih =>
    intro length
    unfold extendGo
    split
    · split
      · exact Nat.le_trans (Nat.le_succ _) (ih (length + 1))
      · exact Nat.le_refl _
    · exact Nat.le_refl _

theorem extendGo_le (lst : List α) (pred : α → Bool) (bc start : Nat) :
    ∀ (fuel length : Nat), start + length ≤ lst.length →
      start + extendGo lst pred bc start fuel length ≤ lst.length := by
  intro fuel
  induction fuel with
  | zero => intro length h; exact h
  | succ k ih =>
    intro length h
    unfold extendGo
    split
    · rename_i a hg
      split
      · exact ih (length + 1) (by have := get?_lt hg; omega)
      · exact h
    · exact h

theorem extendGo_np (lst : List α) (pred : α → Bool) (bc start : Nat) :
    ∀ (fuel length : Nat), ∀ j x, start + length ≤ j →
      j < start + extendGo lst pred bc start fuel length →
      lst.get? j = some x → pred x = false := by
  intro fuel
  induction fuel with
  | zero =>
    intro length j x h1 h2 _
    unfold extendGo at h2
    omega
  | succ k ih =>
    intro length j x h1 h2 hj
    unfold extendGo at h2
    split at h2
    · rename_i a hg
      split at h2
      · rename_i hcond
        by_cases hje : j = start + length
        · subst hje
          rw [hg] at hj
          obtain rfl := Option.some.inj hj
          simpa using hcond.2
        · exact ih (length + 1) j x (by omega) h2 hj
      · omega
    · omega

theorem slideGo_ge (lst : List α) (pred : α → Bool) (length : Nat) :
    ∀ (fuel start : Nat), start ≤ slideGo lst pred length fuel start := by
  intro fuel
  induction fuel with
  | zero => intro start; exact Nat.le_refl _
  | succ k ih =>
    intro start
    unfold slideGo
    split
    · split
      · exact Nat.le_trans (Nat.le_succ _) (ih (start + 1))
      · exact Nat.le_refl _
    · exact Nat.le_refl _

theorem slideGo_le (lst : List α) (pred : α → Bool) (length : Nat) :
    ∀ (fuel start : Nat), start + length ≤ lst.length →
      slideGo lst pred length fuel start + length ≤ lst.length := by
  intro fuel
  induction fuel with
  | zero => intro start h; exact h
  | succ k ih =>
    intro start h
    unfold slideGo
    split
    · rename_i a hg
      split
      · exact ih (start + 1) (by have := get?_lt hg; omega)
      · exact h
    · exact h

theorem slideGo_np (lst : List α) (pred : α → Bool) (length : Nat) :
    ∀ (fuel start : Nat),
      (∀ j x, start ≤ j → j < start + length → lst.get? j = some x →
        pred x = false) →
      ∀ j x, start ≤ j → j < slideGo lst pred length fuel start + length →
        lst.get? j = some x → pred x = false := by
  intro fuel
  induction fuel with
  | zero =>
    intro start hnp j x h1 h2 hj
    unfold slideGo at h2
    exact hnp j x h1 h2 hj
  | succ k ih =>
    intro start hnp j x h1 h2 hj
    unfold slideGo at h2
    split at h2
    · rename_i a hg
      split at h2
      · rename_i hcond
        have hnp1 : ∀ j x, start + 1 ≤ j → j < (start + 1) + length →
            lst.get? j = some x → pred x = false := by
          intro j2 x2 hj1 hj2 hjg
          by_cases hje : j2 = start + length
          · subst hje
            rw [hg] at hjg
            obtain rfl := Option.some.inj hjg
            simpa using hcond
          · exact hnp j2 x2 (by omega) (by omega) hjg
        by_cases hjlow : j = start
        · subst hjlow
          by_cases hlen0 : length = 0
          · subst hlen0
            rw [Nat.add_zero] at hg
            rw [hg] at hj
            obtain rfl := Option.some.inj hj
            simpa using hcond
          · exact hnp j x (Nat.le_refl _) (by omega) hj
        · exact ih (start + 1) hnp1 j x (by omega) h2 hj
      · exact hnp j x h1 h2 hj
    · exact hnp j x h1 h2 hj

theorem slideGo_exit (lst : List α) (pred : α → Bool) (length : Nat) :
    ∀ (fuel start : Nat), lst.length ≤ fuel + (start + length) →
      lst.get? (slideGo lst pred length fuel start + length) = none ∨
      ∃ a, lst.get? (slideGo lst pred length fuel start + length) = some a ∧
        pred a = true := by
  intro fuel
  induction fuel with
  | zero =>
    intro start hsuf
    unfold slideGo
    left
    exact List.get?_eq_none.mpr (by omega)
  | succ k ih =>
    intro start hsuf
    unfold slideGo
    split
    · rename_i a hg
      split
      · exact ih (start + 1) (by omega)
      · rename_i hcond
        right
        refine ⟨a, hg, ?_⟩
        by_contra hfa
        exact hcond (by simpa using hfa)
    · rename_i hg
      left
      exact hg

theorem afterGo_ge (lst : List α) (pred : α → Bool) (ac base : Nat) :
    ∀ (fuel el : Nat), el ≤ afterGo lst pred ac base fuel el := by
  intro fuel
  induction fuel with
  | zero => intro el; exact Nat.le_refl _
  | succ k ih =>
    intro el
    unfold afterGo
    split
    · split
      · exact Nat.le_trans (Nat.le_succ _) (ih (el + 1))
      · exact Nat.le_refl _
    · exact Nat.le_refl _

theorem afterGo_le (lst : List α) (pred : α → Bool) (ac base : Nat) :
    ∀ (fuel el : Nat), base + el ≤ lst.length →
      base + afterGo lst pred ac base fuel el ≤ lst.length := by
  intro fuel
  induction fuel with
  | zero => intro el h; exact h
  | succ k ih =>
    intro el h
    unfold afterGo
    split
    · rename_i a hg
      split
      · exact ih (el + 1) (by have := get?_lt hg; omega)
      · exact h
    · exact h


theorem growGo_ge (lst : List α) (pred : α → Bool) (bc ac start : Nat) :
    ∀ (fuel length : Nat), length ≤ growGo lst pred bc ac start fuel length := by
  intro fuel
  induction fuel with
  | zero => intro length; exact Nat.le_refl _
  | succ k ih =>
    intro length
    unfold growGo
    rcases hg : lst.get? (start + length) with _ | a
    · exact Nat.le_refl _
    · dsimp only
      by_cases hp : pred a = true
      · rw [if_pos hp]
        rcases hgb : lst.get? (start + (length +
            afterGo lst pred ac (start + length) (ac + 1) 1)) with _ | b
        · dsimp only
          exact Nat.le_trans (Nat.le_add_right length _) (ih _)
        · dsimp only
          by_cases hpb : pred b = true
          · rw [if_neg (fun hcontra => hcontra hpb)]
            exact Nat.le_trans (Nat.le_add_right length _) (ih _)
          · rw [if_pos hpb]
            rcases hgc : lst.get? (start + (length +
                afterGo lst pred ac (start + length) (ac + 1) 1) +
                beforeGo lst pred bc (start + (length +
                  afterGo lst pred ac (start + length) (ac + 1) 1)) bc 1) with _ | c
            · dsimp only
              exact Nat.le_trans (Nat.le_add_right length _) (ih _)
            · dsimp only
              by_cases hpc : pred c = true
              · rw [if_pos hpc]
                exact Nat.le_trans
                  (Nat.le_trans (Nat.le_add_right length _) (Nat.le_add_right _ _))
                  (ih _)
              · rw [if_neg hpc]
                exact Nat.le_trans (Nat.le_add_right length _) (ih _)
      · rw [if_neg hp]

theorem growGo_le (lst : List α) (pred : α → Bool) (bc ac start : Nat) :
    ∀ (fuel length : Nat), start + length ≤ lst.length →
      start + growGo lst pred bc ac start fuel length ≤ lst.length := by
  intro fuel
  induction fuel with
  | zero => intro length h; exact h
  | succ k ih =>
    intro length h
    unfold growGo
    rcases hg : lst.get? (start + length) with _ | a
    · exact h
    · dsimp only
      by_cases hp : pred a = true
      · rw [if_pos hp]
        have hlt := get?_lt hg
        have hafter : start + (length +
            afterGo lst pred ac (start + length) (ac + 1) 1) ≤ lst.length := by
          have := afterGo_le lst pred ac (start + length) (ac + 1) 1 (by omega)
          omega
        rcases hgb : lst.get? (start + (length +
            afterGo lst pred ac (start + length) (ac + 1) 1)) with _ | b
        · dsimp only
          exact ih _ hafter
        · dsimp only
          by_cases hpb : pred b = true
          · rw [if_neg (fun hcontra => hcontra hpb)]
            exact ih _ hafter
          · rw [if_pos hpb]
            rcases hgc : lst.get? (start + (length +
                afterGo lst pred ac (start + length) (ac + 1) 1) +
                beforeGo lst pred bc (start + (length +
                  afterGo lst pred ac (start + length) (ac + 1) 1)) bc 1) with _ | c
            · dsimp only
              exact ih _ hafter
            · dsimp only
              by_cases hpc : pred c = true
              · rw [if_pos hpc]
                have hstep : start + (length +
                    afterGo lst pred ac (start + length) (ac + 1) 1 +
                    beforeGo lst pred bc (start + (length +
                      afterGo lst pred ac (start + length) (ac + 1) 1)) bc 1) ≤
                    lst.length := by
                  have hcl := get?_lt hgc
                  omega
                exact ih _ hstep
              · rw [if_neg hpc]
                exact ih _ hafter
      · rw [if_neg hp]
        exact h

theorem growGo_succ (lst : List α) (pred : α → Bool) (bc ac start : Nat)
    (fuel length : Nat) {a : α} (hg : lst.get? (start + length) = some a)
    (hp : pred a = true) (hf : 0 < fuel) :
    length + 1 ≤ growGo lst pred bc ac start fuel length := by
  cases fuel with
  | zero => omega
  | succ k =>
    unfold growGo
    rw [hg]
    dsimp only
    rw [if_pos hp]
    have hel := afterGo_ge lst pred ac (start + length) (ac + 1) 1
    have key : ∀ L, length + 1 ≤ L →
        length + 1 ≤ growGo lst pred bc ac start k L :=
      fun L hL => Nat.le_trans hL (growGo_ge lst pred bc ac start k L)
    have h1 : length + 1 ≤ length +
        afterGo lst pred ac (start + length) (ac + 1) 1 := by omega
    have h2 : length + 1 ≤ length +
        afterGo lst pred ac (start + length) (ac + 1) 1 +
        beforeGo lst pred bc (start + (length +
          afterGo lst pred ac (start + length) (ac + 1) 1)) bc 1 := by omega
    rcases hgb : lst.get? (start + (length +
        afterGo lst pred ac (start + length) (ac + 1) 1)) with _ | b
    · dsimp only
      exact key _ h1
    · dsimp only
      by_cases hpb : pred b = true
      · rw [if_neg (fun hcontra => hcontra hpb)]
        exact key _ h1
      · rw [if_pos hpb]
        rcases hgc : lst.get? (start + (length +
            afterGo lst pred ac (start + length) (ac + 1) 1) +
            beforeGo lst pred bc (start + (length +
              afterGo lst pred ac (start + length) (ac + 1) 1)) bc 1) with _ | c
        · dsimp only
          exact key _ h1
        · dsimp only
          by_cases hpc : pred c = true
          · rw [if_pos hpc]
            exact key _ h2
          · rw [if_neg hpc]
            exact key _ h1

theorem ewcGo_sound (lst : List α) (pred : α → Bool) (bc ac : Nat) :
    ∀ (fuel start : Nat), lst.length + 1 ≤ fuel + start →
      (∀ p, p ∈ ewcGo lst pred bc ac fuel start →
        start ≤ p.1 ∧ 1 ≤ p.2 ∧ p.1 + p.2 ≤ lst.length) ∧
      List.Pairwise (fun p q => p.1 + p.2 ≤ q.1)
        (ewcGo lst pred bc ac fuel start) ∧
      (∀ j x, start ≤ j → lst.get? j = some x → pred x = true →
        ∃ p, p ∈ ewcGo lst pred bc ac fuel start ∧ p.1 ≤ j ∧ j < p.1 + p.2) ∧
      (∀ p, p ∈ ewcGo lst pred bc ac fuel start →
        ∃ j x, p.1 ≤ j ∧ j < p.1 + p.2 ∧ lst.get? j = some x ∧
          pred x = true) := by
  intro fuel
  induction fuel with
  | zero =>
    intro start hsuf
    refine ⟨?_, ?_, ?_, ?_⟩
    · intro p hp; cases hp
    · exact List.Pairwise.nil
    · intro j x hj hget hpred
      have := get?_lt hget
      omega
    · intro p hp; cases hp
  | succ k ih =>
    intro start hsuf
    by_cases hlt : start < lst.length
    case neg =>
      have heq : ewcGo lst pred bc ac (k + 1) start = [] := by
        unfold ewcGo
        rw [if_neg hlt]
      rw [heq]
      refine ⟨?_, ?_, ?_, ?_⟩
      · intro p hp; cases hp
      · exact List.Pairwise.nil
      · intro j x hj hget hpred
        have := get?_lt hget
        omega
      · intro p hp; cases hp
    case pos =>
      set len1 := extendGo lst pred bc start (bc + 1) 0 with hlen1def
      set start1 := slideGo lst pred len1 lst.length start with hstart1def
      have hele : start + len1 ≤ lst.length := by
        rw [hlen1def]
        exact extendGo_le lst pred bc start (bc + 1) 0 (by omega)
      have henp : ∀ j x, start ≤ j → j < start + len1 →
          lst.get? j = some x → pred x = false := by
        intro j x h1 h2 hj
        rw [hlen1def] at h2
        exact extendGo_np lst pred bc start (bc + 1) 0 j x (by omega) h2 hj
      have hsge : start ≤ start1 := by
        rw [hstart1def]
        exact slideGo_ge lst pred len1 lst.length start
      have hsle : start1 + len1 ≤ lst.length := by
        rw [hstart1def]
        exact slideGo_le lst pred len1 lst.length start hele
      have hsnp : ∀ j x, start ≤ j → j < start1 + len1 →
          lst.get? j = some x → pred x = false := by
        rw [hstart1def]
        exact slideGo_np lst pred len1 lst.length start henp
      by_cases hbreak : start1 + len1 = lst.length
      · have heq : ewcGo lst pred bc ac (k + 1) start = [] := by
          unfold ewcGo
          rw [if_pos hlt]
          dsimp only
          rw [← hlen1def, ← hstart1def, if_pos hbreak]
        rw [heq]
        refine ⟨?_, ?_, ?_, ?_⟩
        · intro p hp; cases hp
        · exact List.Pairwise.nil
        · intro j x hj hget hpred
          have hjl := get?_lt hget
          have hfalse := hsnp j x hj (by omega) hget
          rw [hpred] at hfalse
          exact Bool.noConfusion hfalse
        · intro p hp; cases hp
      · have hexit := slideGo_exit lst pred len1 lst.length start (by omega)
        rw [← hstart1def] at hexit
        have hsomea : ∃ a, lst.get? (start1 + len1) = some a ∧ pred a = true := by
          rcases hexit with hnone | hsome
          · rw [List.get?_eq_none] at hnone
            omega
          · exact hsome
        obtain ⟨a, hga, hpa⟩ := hsomea
        set len2 := growGo lst pred bc ac start1 lst.length len1 with hlen2def
        have hgge : len1 + 1 ≤ len2 := by
          rw [hlen2def]
          exact growGo_succ lst pred bc ac start1 lst.length len1 hga hpa
            (by omega)
        have hgle : start1 + len2 ≤ lst.length := by
          rw [hlen2def]
          exact growGo_le lst pred bc ac start1 lst.length len1 hsle
        have heq : ewcGo lst pred bc ac (k + 1) start =
            (start1, len2) :: ewcGo lst pred bc ac k (start1 + len2) := by
          conv_lhs => rw [ewcGo]
          dsimp only
          rw [if_pos hlt, ← hlen1def, ← hstart1def, if_neg hbreak, ← hlen2def,
            if_pos ⟨by omega, hgle⟩]
          rfl
        rw [heq]
        obtain ⟨ih1, ih2, ih3, ih4⟩ := ih (start1 + len2) (by omega)
        refine ⟨?_, ?_, ?_, ?_⟩
        · intro p hp
          rcases List.mem_cons.mp hp with rfl | hp
          · have h12 : 1 ≤ len2 := by omega
            exact ⟨hsge, h12, hgle⟩
          · have h := ih1 p hp
            exact ⟨by omega, h.2.1, h.2.2⟩
        · refine List.Pairwise.cons ?_ ih2
          intro q hq
          exact (ih1 q hq).1
        · intro j x hj hget hpred
          by_cases hj2 : j < start1 + len1
          · exfalso
            have hfalse := hsnp j x hj hj2 hget
            rw [hpred] at hfalse
            exact Bool.noConfusion hfalse
          · by_cases hj3 : j < start1 + len2
            · have ha1 : start1 ≤ j := by omega
              exact ⟨(start1, len2), List.mem_cons_self _ _, ha1, hj3⟩
            · obtain ⟨p, hp, hc1, hc2⟩ := ih3 j x (by omega) hget hpred
              exact ⟨p, List.mem_cons_of_mem _ hp, hc1, hc2⟩
        · intro p hp
          rcases List.mem_cons.mp hp with rfl | hp
          · have hb2 : start1 + len1 < start1 + len2 := by omega
            exact ⟨start1 + len1, a, Nat.le_add_right _ _, hb2, hga, hpa⟩
          · exact ih4 p hp

theorem pairwise_cover_unique {l : List (Nat × Nat)}
    (hpw : List.Pairwise (fun p q => p.1 + p.2 ≤ q.1) l) :
    ∀ p q, p ∈ l → q ∈ l → ∀ j, p.1 ≤ j → j < p.1 + p.2 →
      q.1 ≤ j → j < q.1 + q.2 → p = q := by
  induction l with
  | nil => intro p q hp _ _ _ _ _ _; cases hp
  | cons a t ih =>
    intro p q hp hq j hp1 hp2 hq1 hq2
    rcases List.mem_cons.mp hp with rfl | hpt
    · rcases List.mem_cons.mp hq with rfl | hqt
      · rfl
      · have := (List.pairwise_cons.mp hpw).1 q hqt
        omega
    · rcases List.mem_cons.mp hq with rfl | hqt
      · have := (List.pairwise_cons.mp hpw).1 p hpt
        omega
      · exact ih (List.pairwise_cons.mp hpw).2 p q hpt hqt j hp1 hp2 hq1 hq2

/-- C2: the windows extract_with_context returns are the slices of the spans
computed by the scan; those spans are at least one line long and in bounds
(so each window is a contiguous sub-sequence of the input), pairwise
non-overlapping and emitted in input order; every line satisfying the
predicate lies in exactly one returned span; and every returned span
contains at least one line satisfying the predicate. -/
theorem extract_with_context_sound {α : Type _} (lst : List α)
    (pred : α → Bool) (before_context after_context : Nat) :
    extract_with_context lst pred before_context after_context =
      (ewcSpans lst pred before_context after_context).map (fun p =>
        ((lst.drop p.1).take p.2, decide (p.1 = 0),
          decide (p.1 + p.2 = lst.length))) ∧
    (∀ p, p ∈ ewcSpans lst pred before_context after_context →
      1 ≤ p.2 ∧ p.1 + p.2 ≤ lst.length) ∧
    List.Pairwise (fun p q => p.1 + p.2 ≤ q.1)
      (ewcSpans lst pred before_context after_context) ∧
    (∀ j x, lst.get? j = some x → pred x = true →
      ∃ p, (p ∈ ewcSpans lst pred before_context after_context ∧
          p.1 ≤ j ∧ j < p.1 + p.2) ∧
        ∀ q, (q ∈ ewcSpans lst pred before_context after_context ∧
            q.1 ≤ j ∧ j < q.1 + q.2) → q = p) ∧
    (∀ p, p ∈ ewcSpans lst pred before_context after_context →
      ∃ j x, p.1 ≤ j ∧ j < p.1 + p.2 ∧ lst.get? j = some x ∧
        pred x = true) := by
  obtain ⟨h1, h2, h3, h4⟩ :=
    ewcGo_sound lst pred before_context after_context (lst.length + 1) 0
      (by omega)
  refine ⟨rfl, ?_, h2, ?_, h4⟩
  · intro p hp
    exact ⟨(h1 p hp).2.1, (h1 p hp).2.2⟩
  · intro j x hget hpred
    obtain ⟨p, hp, hc1, hc2⟩ := h3 j x (Nat.zero_le _) hget hpred
    refine ⟨p, ⟨hp, hc1, hc2⟩, ?_⟩
    rintro q ⟨hq, hq1, hq2⟩
    exact pairwise_cover_unique h2 q p hq hp j hq1 hq2 hc1 hc2

/-- Witness for extract_with_context_sound: on the two lines [false, true],
line index 1 satisfies the predicate and is covered by exactly one span. -/
theorem extract_with_context_sound_witness :
    ∃ p, (p ∈ ewcSpans [false, true] (fun x => x) 1 1 ∧
        p.1 ≤ 1 ∧ 1 < p.1 + p.2) ∧
      ∀ q, (q ∈ ewcSpans [false, true] (fun x => x) 1 1 ∧
          q.1 ≤ 1 ∧ 1 < q.1 + q.2) → q = p :=
  (extract_with_context_sound [false, true] (fun x => x) 1 1).2.2.2.1 1 true
    (by decide) (by decide)
